import Mathlib

/-!
Shallow embedding of the `DataAggregator` class from
`analyzer/aggregator.py` of the web-data-analysis-dashboard repository.

Modelling conventions:
* A Python record dict is a `Record`; an `Option` field value `none` means the
  key is absent from the dict.
* Timestamps (`datetime`) are modelled as natural numbers counting seconds
  since an epoch that falls on a Monday 00:00 (so pandas weekly periods, which
  start on Monday, are multiples of 604800).  `datetime.min` is modelled by `0`.
* Python floats are modelled by `ℚ`; the IEEE value NaN, which arises from
  pandas inserting missing values into a column, is modelled by `none` in
  `Option ℚ`, with NaN-propagating arithmetic spelled out (`pySum`, `pyMin`,
  `pyMax`, `nanMean`).  Binary representation error of decimal literals is not
  modelled: `round(x, n)` is modelled as exact round-half-to-even on ℚ.
* A pandas DataFrame column exists iff at least one record carries the key;
  rows lacking the key then hold NaN in that column.
-/

structure Record where
  sentiment : Option String
  score : Option ℚ
  confidence : Option ℚ
  analyzed_at : Option Nat
  source : Option String
deriving DecidableEq, Repr

/-- Python `sum(xs)` over a float list containing possible NaNs: left fold of
`+` starting from `0`; any NaN makes the result NaN. -/
def pySum (xs : List (Option ℚ)) : Option ℚ :=
  xs.foldl (fun acc v => match acc, v with
    | some a, some b => some (a + b)
    | _, _ => none) (some 0)

/-- Python `a < b` on floats where either side may be NaN: any comparison with
NaN is `False`. -/
def pyLtQ (a b : Option ℚ) : Bool :=
  match a, b with
  | some x, some y => decide (x < y)
  | _, _ => false

/-- Python `min(xs)` for a non-empty float list (`None` for the empty list,
matching `min(scores) if scores else None`): iterate keeping the current
minimum, replacing it when `item < current`; NaNs never win a comparison, so
the result depends on position, exactly as in CPython. -/
def pyMin (xs : List (Option ℚ)) : Option (Option ℚ) :=
  match xs with
  | [] => none
  | x :: rest => some (rest.foldl (fun acc v => if pyLtQ v acc then v else acc) x)

/-- Python `max(xs)` for a non-empty float list, `None` on the empty list. -/
def pyMax (xs : List (Option ℚ)) : Option (Option ℚ) :=
  match xs with
  | [] => none
  | x :: rest => some (rest.foldl (fun acc v => if pyLtQ acc v then v else acc) x)

/-- Round-half-to-even of a rational to an integer (the rounding mode of
Python's `round`). -/
def rheInt (x : ℚ) : ℤ :=
  let f := ⌊x⌋
  let frac := x - (f : ℚ)
  if frac < 1/2 then f
  else if (1:ℚ)/2 < frac then f + 1
  else if f % 2 = 0 then f else f + 1

/-- `round(x, d)` on an exact rational: round-half-to-even at `d` decimal
places. -/
def roundQ (d : Nat) (x : ℚ) : ℚ :=
  (rheInt (x * (10 ^ d : ℕ)) : ℚ) / (10 ^ d : ℕ)

/-- Round-half-to-even of the exact rational `a / t` scaled by nothing:
numerator-level formulation used for the percentage fields, which are
`round(count / total * 100, 1)`, i.e. `roundHalfEvenDiv (1000 * count) total`
tenths. -/
def roundHalfEvenDiv (a t : Nat) : Nat :=
  let q := a / t
  let r := a % t
  if 2 * r < t then q
  else if t < 2 * r then q + 1
  else if q % 2 = 0 then q else q + 1

/-- The rounded percentage `round(c / t * 100, 1)` expressed in tenths. -/
def pctTenths (c t : Nat) : Nat := roundHalfEvenDiv (1000 * c) t

/-- The rounded percentage `round(c / t * 100, 1)` as a rational. -/
def pctQ (c t : Nat) : ℚ := (pctTenths c t : ℚ) / 10

/-- Fuel-driven helper for `firstDedup` (structural recursion on the fuel so
that the kernel can evaluate it). -/
def firstDedupFuel {α : Type} [DecidableEq α] : Nat → List α → List α
  | 0, _ => []
  | _ + 1, [] => []
  | n + 1, a :: l => a :: firstDedupFuel n (l.filter (fun x => x ≠ a))

/-- Distinct elements of a list in first-occurrence order: the key order of a
Python dict / `defaultdict` built by insertion. -/
def firstDedup {α : Type} [DecidableEq α] (l : List α) : List α :=
  firstDedupFuel l.length l

theorem firstDedupFuel_nil {α : Type} [DecidableEq α] (n : Nat) :
    firstDedupFuel n ([] : List α) = [] := by
  cases n <;> rfl

theorem firstDedupFuel_fuel_irrel {α : Type} [DecidableEq α] :
    ∀ (n m : Nat) (l : List α), l.length ≤ n → l.length ≤ m →
      firstDedupFuel n l = firstDedupFuel m l := by
  intro n
  induction n with
  | zero =>
    intro m l hl _
    have : l = [] := List.length_eq_zero.mp (Nat.le_zero.mp hl)
    subst this
    rw [firstDedupFuel_nil, firstDedupFuel_nil]
  | succ n ih =>
    intro m l hn hm
    match l with
    | [] => rw [firstDedupFuel_nil, firstDedupFuel_nil]
    | a :: t =>
      match m with
      | m' + 1 =>
        have hflt : (t.filter (fun x => x ≠ a)).length ≤ t.length :=
          List.length_filter_le _ _
        show a :: firstDedupFuel n (t.filter (fun x => x ≠ a))
            = a :: firstDedupFuel m' (t.filter (fun x => x ≠ a))
        rw [ih m' _ (le_trans hflt (Nat.le_of_succ_le_succ hn))
          (le_trans hflt (Nat.le_of_succ_le_succ hm))]

/-- The recursion equation of `firstDedup`. -/
theorem firstDedup_cons {α : Type} [DecidableEq α] (a : α) (m : List α) :
    firstDedup (a :: m) = a :: firstDedup (m.filter (fun x => x ≠ a)) := by
  have h2 : firstDedup (a :: m)
      = a :: firstDedupFuel m.length (m.filter (fun x => x ≠ a)) := rfl
  rw [h2, firstDedupFuel_fuel_irrel m.length (m.filter (fun x => x ≠ a)).length _
    (List.length_filter_le _ _) (Nat.le_refl _)]
  rfl

/-- Stable insertion into a list sorted by `le`. -/
def insertBy {α : Type} (le : α → α → Bool) (x : α) : List α → List α
  | [] => [x]
  | y :: l => if le x y then x :: y :: l else y :: insertBy le x l

/-- Stable insertion sort by `le` (models Python's stable `sorted`). -/
def sortBy {α : Type} (le : α → α → Bool) (l : List α) : List α :=
  l.foldr (insertBy le) []

section AggregatorDefs

/-- The effective sentiment label of an item inside `_get_sentiment_summary`:
`item.get('sentiment', 'neutral')`. -/
def sentimentLabel (r : Record) : String := r.sentiment.getD "neutral"

structure SentimentSummary where
  positive : Nat
  negative : Nat
  neutral : Nat
  positive_pct : ℚ
  negative_pct : ℚ
  neutral_pct : ℚ
  dominant : String
deriving DecidableEq, Repr

/-- `max(counts.items(), key=lambda x: x[1])[0]`: the first label, in dict
insertion order (= first occurrence order), attaining the maximal count.
Python's `max` replaces the running best only on a strictly larger key. -/
def dominantLabel (labels : List String) : String :=
  match firstDedup labels with
  | [] => "neutral"
  | d :: ds => ds.foldl (fun b l => if labels.count b < labels.count l then l else b) d

/-- `_get_sentiment_summary`.  The empty-input branch of the Python code
returns a dict without the `*_pct` keys; those absent keys are modelled as the
value `0` here. -/
def get_sentiment_summary (items : List Record) : SentimentSummary :=
  if items.isEmpty then
    { positive := 0, negative := 0, neutral := 0
      positive_pct := 0, negative_pct := 0, neutral_pct := 0
      dominant := "neutral" }
  else
    let labels := items.map sentimentLabel
    let total := labels.length
    { positive := labels.count "positive"
      negative := labels.count "negative"
      neutral := labels.count "neutral"
      positive_pct := pctQ (labels.count "positive") total
      negative_pct := pctQ (labels.count "negative") total
      neutral_pct := pctQ (labels.count "neutral") total
      dominant := dominantLabel labels }

/-- The period-column truncation for one timestamp, mirroring the
`if period == 'daily' ... elif ... else` chain that assigns `df['period']`.
`daily` is `dt.date` (a day index), `weekly` is the start of the Monday-based
pandas `W` period (the epoch is a Monday), `hourly` is `dt.floor('H')`, and any
other string falls into the `else` branch, which repeats the daily rule. -/
def truncPeriod (period : String) (t : Nat) : Nat :=
  if period = "daily" then t / 86400
  else if period = "weekly" then t / 604800 * 604800
  else if period = "hourly" then t / 3600 * 3600
  else t / 86400

/-- The value of the `period` column for one record: `NaT` (= `none`) when the
record lacks the date field. -/
def periodKey (period : String) (r : Record) : Option Nat :=
  r.analyzed_at.map (truncPeriod period)

/-- The rows of the DataFrame falling into the group with key `k`
(`df.groupby('period')` keeps intra-group row order and drops `NaT` keys). -/
def periodGroup (data : List Record) (period : String) (k : Nat) : List Record :=
  data.filter (fun r => periodKey period r = some k)

structure SentimentDistribution where
  positive : Nat
  negative : Nat
  neutral : Nat
deriving DecidableEq, Repr

structure PeriodBucket where
  period : Nat
  total_items : Nat
  sentiment_distribution : SentimentDistribution
  average_score : Option ℚ
  average_confidence : Option ℚ
  min_score : Option (Option ℚ)
  max_score : Option (Option ℚ)
deriving DecidableEq, Repr

/-- The float column values `group['score'].tolist()` (respectively
`confidence`): present only when some record of the *whole* input carries the
key (column existence), with `NaN` (= `none`) for group rows lacking it. -/
def groupColumn (data grp : List Record) (f : Record → Option ℚ) : List (Option ℚ) :=
  if data.any (fun r => (f r).isSome) then grp.map f else []

/-- `sum(xs) / len(xs) if xs else 0`. -/
def listAverage (xs : List (Option ℚ)) : Option ℚ :=
  if xs.isEmpty then some 0
  else (pySum xs).map (fun s => s / (xs.length : ℚ))

/-- `_aggregate_group` for the group of key `k`.  `value_counts()` ignores
missing values, so each named sentiment count is the number of group rows whose
`sentiment` cell holds exactly that label (an absent column gives the same
all-zero counts). -/
def aggregate_group (data : List Record) (period : String) (k : Nat) : PeriodBucket :=
  let grp := periodGroup data period k
  let scores := groupColumn data grp Record.score
  let confidences := groupColumn data grp Record.confidence
  { period := k
    total_items := grp.length
    sentiment_distribution :=
      { positive := (grp.map Record.sentiment).count (some "positive")
        negative := (grp.map Record.sentiment).count (some "negative")
        neutral := (grp.map Record.sentiment).count (some "neutral") }
    average_score := listAverage scores
    average_confidence := listAverage confidences
    min_score := pyMin scores
    max_score := pyMax scores }

/-- `aggregate_by_period` with the default `date_field='analyzed_at'`.
Empty input returns `[]`; so does a non-empty input in which no record carries
the date field (the column does not exist, only a warning is logged).  The
groups of `df.groupby('period')` are then reduced and the result is sorted
ascending by the bucket key. -/
def aggregate_by_period (data : List Record) (period : String) : List PeriodBucket :=
  if data.isEmpty then []
  else if !(data.any (fun r => r.analyzed_at.isSome)) then []
  else
    (sortBy (fun a b => a ≤ b) (firstDedup (data.filterMap (periodKey period)))).map
      (aggregate_group data period)

/-- `item.get('source', 'unknown')`: only an *absent* key defaults; an empty
string is kept as-is. -/
def sourceKey (r : Record) : String := r.source.getD "unknown"

/-- The partition of the input belonging to source key `s`. -/
def sourceGroup (data : List Record) (s : String) : List Record :=
  data.filter (fun r => sourceKey r = s)

structure SourceSummary where
  total_items : Nat
  sentiment_summary : SentimentSummary
  last_updated : Option Nat
deriving DecidableEq, Repr

/-- `max((item.get('analyzed_at', datetime.min) for item in items), default=None)`:
`datetime.min` is modelled by `0`. -/
def lastUpdated (items : List Record) : Option Nat :=
  items.foldl (fun acc r =>
    let t := r.analyzed_at.getD 0
    match acc with
    | none => some t
    | some m => some (max m t)) none

/-- The per-source summary built in the loop body of `aggregate_by_source`:
the sentiment summary is computed over only the items that carry the
`sentiment` key. -/
def mkSourceSummary (items : List Record) : SourceSummary :=
  { total_items := items.length
    sentiment_summary := get_sentiment_summary (items.filter (fun r => r.sentiment.isSome))
    last_updated := lastUpdated items }

/-- `aggregate_by_source`: a `defaultdict(list)` partition keyed by
`sourceKey`, returned as an association list in key insertion order (Python
dicts preserve insertion order). -/
def aggregate_by_source (data : List Record) : List (String × SourceSummary) :=
  (firstDedup (data.map sourceKey)).map (fun s => (s, mkSourceSummary (sourceGroup data s)))

/-- An input row of `calculate_trends`: a dict that may or may not carry
`average_score`. -/
structure TrendRecord where
  average_score : Option ℚ
deriving DecidableEq, Repr

structure TrendResult where
  trend : String
  change_rate : Option ℚ
  direction : String
  recent_average : Option ℚ
  previous_average : Option ℚ
deriving DecidableEq, Repr

/-- `Series.mean()` with pandas default `skipna=True`: the mean of the present
values, NaN when none is present. -/
def nanMean (xs : List (Option ℚ)) : Option ℚ :=
  let p := xs.filterMap id
  if p.isEmpty then none else some (p.sum / (p.length : ℚ))

/-- `rolling(window=w, min_periods=1).mean()` at row `i`: the mean of the
present values among the last `w` entries ending at `i` (pandas rolling
aggregations skip NaN; with fewer than `min_periods = 1` present values the
result is NaN). -/
def rollingMean (xs : List (Option ℚ)) (w : Nat) : List (Option ℚ) :=
  (List.range xs.length).map (fun i => nanMean ((xs.take (i + 1)).drop (i + 1 - w)))

/-- `df['ma'].iloc[-w:].mean() if len(df) >= w else df['ma'].mean()`. -/
def trendRecentAvg (data : List TrendRecord) (w : Nat) : Option ℚ :=
  let ma := rollingMean (data.map TrendRecord.average_score) w
  if w ≤ ma.length then nanMean (ma.drop (ma.length - w)) else nanMean ma

/-- `df['ma'].iloc[-w*2:-w].mean() if len(df) >= w*2 else df['ma'].iloc[0]`. -/
def trendPrevAvg (data : List TrendRecord) (w : Nat) : Option ℚ :=
  let ma := rollingMean (data.map TrendRecord.average_score) w
  if 2 * w ≤ ma.length then nanMean ((ma.drop (ma.length - 2 * w)).take w)
  else ma.headD none

/-- Python `abs` on a float. -/
def pyAbs (q : ℚ) : ℚ := if q < 0 then -q else q

/-- The change-rate computation: `previous_avg != 0` is `True` when
`previous_avg` is NaN (so the arithmetic branch is taken and NaN propagates);
only an exact zero takes the `change_rate = 0` branch. -/
def mkChangeRate (recent prev : Option ℚ) : Option ℚ :=
  if prev = some 0 then some 0
  else match recent, prev with
    | some r, some p => some ((r - p) / pyAbs p * 100)
    | _, _ => none

/-- The internal (pre-rounding) `change_rate` value of `calculate_trends` on
the main path. -/
def trendChangeRate (data : List TrendRecord) (w : Nat) : Option ℚ :=
  mkChangeRate (trendRecentAvg data w) (trendPrevAvg data w)

/-- The direction classification: NaN compares `False` on both thresholds, so
a NaN change rate classifies as `"stable"`. -/
def classifyDirection : Option ℚ → String
  | some c => if 10 < c then "improving" else if c < -10 then "declining" else "stable"
  | none => "stable"

/-- `calculate_trends`.  The two early returns produce dicts without the
`recent_average` and `previous_average` keys; those absent keys are modelled
as `none`.  `round(x, n)` on NaN stays NaN. -/
def calculate_trends (data : List TrendRecord) (w : Nat) : TrendResult :=
  if data.length < w then
    { trend := "insufficient_data", change_rate := some 0, direction := "neutral"
      recent_average := none, previous_average := none }
  else if data.all (fun r => r.average_score.isNone) then
    { trend := "no_scores", change_rate := some 0, direction := "neutral"
      recent_average := none, previous_average := none }
  else
    let cr := trendChangeRate data w
    { trend := "calculated"
      change_rate := cr.map (roundQ 2)
      direction := classifyDirection cr
      recent_average := (trendRecentAvg data w).map (roundQ 3)
      previous_average := (trendPrevAvg data w).map (roundQ 3) }

/-- `series.min()` / `.max()` with pandas `skipna=True`, over the present
values of a column. -/
def colMin (xs : List ℚ) : Option ℚ :=
  match xs with
  | [] => none
  | x :: rest => some (rest.foldl min x)

def colMax (xs : List ℚ) : Option ℚ :=
  match xs with
  | [] => none
  | x :: rest => some (rest.foldl max x)

def natColMin (xs : List Nat) : Option Nat :=
  match xs with
  | [] => none
  | x :: rest => some (rest.foldl min x)

def natColMax (xs : List Nat) : Option Nat :=
  match xs with
  | [] => none
  | x :: rest => some (rest.foldl max x)

/-- `series.std()` with the pandas default `ddof=1` — modelled *before* the
final square root, i.e. as the sample variance `(Σx² − (Σx)²/n) / (n − 1)`
over the present values; the square root (irrational in general) and its
3-decimal rounding are not representable in ℚ and are left to the reader as a
strictly monotone postcomposition.  With fewer than two present values the
result is NaN (= `none`). -/
def sampleVariance (xs : List ℚ) : Option ℚ :=
  if xs.length ≤ 1 then none
  else
    let n : ℚ := xs.length
    some (((xs.map (fun x => x ^ 2)).sum - xs.sum ^ 2 / n) / ((xs.length - 1 : Nat) : ℚ))

/-- `value_counts().to_dict()` over the present labels of the sentiment
column: each distinct label with its count, ordered by descending count
(pandas sorts value counts), stably on first occurrence among ties. -/
def valueCounts (labels : List String) : List (String × Nat) :=
  sortBy (fun a b => b.2 ≤ a.2) ((firstDedup labels).map (fun s => (s, labels.count s)))

structure SummaryStatistics where
  total_items : Nat
  date_start : Option Nat
  date_end : Option Nat
  sentiment_totals : List (String × Nat)
  score_mean : Option ℚ
  score_std_sq : Option ℚ
  score_min : Option ℚ
  score_max : Option ℚ
deriving DecidableEq, Repr

/-- `get_summary_statistics`.  `score_std_sq` holds the square of the reported
standard deviation (see `sampleVariance`); the `score` statistics are the
pandas NaN-skipping reductions over the column when it exists, and the literal
`0` fallbacks otherwise.  `mean`/`min`/`max` are rounded to 3 decimals as in
the code. -/
def get_summary_statistics (data : List Record) : SummaryStatistics :=
  if data.isEmpty then
    { total_items := 0, date_start := none, date_end := none
      sentiment_totals := [("positive", 0), ("negative", 0), ("neutral", 0)]
      score_mean := some 0, score_std_sq := some 0, score_min := some 0, score_max := some 0 }
  else
    let ts := data.filterMap Record.analyzed_at
    let hasDates := data.any (fun r => r.analyzed_at.isSome)
    let hasSent := data.any (fun r => r.sentiment.isSome)
    let hasScore := data.any (fun r => r.score.isSome)
    let v := data.filterMap Record.score
    { total_items := data.length
      date_start := if hasDates then natColMin ts else none
      date_end := if hasDates then natColMax ts else none
      sentiment_totals :=
        if hasSent then valueCounts (data.filterMap Record.sentiment)
        else [("positive", 0), ("negative", 0), ("neutral", 0)]
      score_mean := if hasScore then some (roundQ 3 (v.sum / (v.length : ℚ))) else some 0
      score_std_sq := if hasScore then sampleVariance v else some 0
      score_min := if hasScore then (colMin v).map (roundQ 3) else some 0
      score_max := if hasScore then (colMax v).map (roundQ 3) else some 0 }

end AggregatorDefs

section BasicLemmas

theorem mem_firstDedup_aux {α : Type} [DecidableEq α] (x : α) :
    ∀ (n : Nat) (l : List α), l.length ≤ n → (x ∈ firstDedup l ↔ x ∈ l) := by
  intro n
  induction n with
  | zero =>
    intro l hl
    have : l = [] := List.length_eq_zero.mp (Nat.le_zero.mp hl)
    subst this
    simp [firstDedup, firstDedupFuel]
  | succ n ih =>
    intro l hl
    match l with
    | [] => simp [firstDedup, firstDedupFuel]
    | a :: m =>
      have hm : (m.filter (fun y => y ≠ a)).length ≤ n := by
        have h1 := List.length_filter_le (fun y => (y ≠ a : Bool)) m
        have h2 : m.length ≤ n := Nat.le_of_succ_le_succ hl
        omega
      have hrec := ih (m.filter (fun y => y ≠ a)) hm
      rw [firstDedup_cons]
      simp only [List.mem_cons, hrec, List.mem_filter, decide_eq_true_eq]
      constructor
      · rintro (h | ⟨h, _⟩)
        · exact Or.inl h
        · exact Or.inr h
      · rintro (h | h)
        · exact Or.inl h
        · by_cases hxa : x = a
          · exact Or.inl hxa
          · exact Or.inr ⟨h, hxa⟩

theorem mem_firstDedup {α : Type} [DecidableEq α] {x : α} {l : List α} :
    x ∈ firstDedup l ↔ x ∈ l :=
  mem_firstDedup_aux x l.length l (Nat.le_refl _)

theorem keys_aggregate_by_source (data : List Record) :
    (aggregate_by_source data).map Prod.fst = firstDedup (data.map sourceKey) := by
  have h : (Prod.fst ∘ fun s => (s, mkSourceSummary (sourceGroup data s)))
      = (id : String → String) := by
    funext s
    rfl
  rw [aggregate_by_source, List.map_map, h, List.map_id]

end BasicLemmas

/-- C9 — Empty-input closure: each aggregation operation applied to the empty
record collection returns its documented default and no error: by-period
aggregation (at any granularity) returns the empty sequence, by-source the
empty mapping, the sentiment summary the all-zero counts with dominant
"neutral", `calculate_trends` (at the default window 7) the
`insufficient_data` result with change rate 0 and direction "neutral", and
`get_summary_statistics` the zeroed summary. -/
theorem C9_empty_input_closure :
    (∀ p : String, aggregate_by_period [] p = [])
    ∧ aggregate_by_source [] = []
    ∧ get_sentiment_summary [] =
        { positive := 0, negative := 0, neutral := 0
          positive_pct := 0, negative_pct := 0, neutral_pct := 0, dominant := "neutral" }
    ∧ calculate_trends [] 7 =
        { trend := "insufficient_data", change_rate := some 0, direction := "neutral"
          recent_average := none, previous_average := none }
    ∧ get_summary_statistics [] =
        { total_items := 0, date_start := none, date_end := none
          sentiment_totals := [("positive", 0), ("negative", 0), ("neutral", 0)]
          score_mean := some 0, score_std_sq := some 0
          score_min := some 0, score_max := some 0 } := by
  refine ⟨fun p => rfl, rfl, rfl, rfl, rfl⟩

/-- C6 counterexample: a record whose `source` field is present but the empty
string is *not* placed under the key "unknown"; it keeps the key `""`
(`item.get('source', 'unknown')` only substitutes a default for an absent
key). -/
theorem C6_counterexample :
    let d : List Record := [⟨none, none, none, none, some ""⟩]
    "unknown" ∉ (aggregate_by_source d).map Prod.fst
    ∧ (aggregate_by_source d).map Prod.fst = [""] := by
  exact ⟨by decide, by decide⟩

/-- C6 amended: a record whose `source` field is *absent* is placed in the
partition keyed by the literal string "unknown"; a record with a present
`source` value `s` (including the empty string) is placed under the key `s`
itself. -/
theorem C6_unknown_source_key (data : List Record) (r : Record) (hr : r ∈ data) :
    (r.source = none → "unknown" ∈ (aggregate_by_source data).map Prod.fst)
    ∧ (∀ s, r.source = some s → s ∈ (aggregate_by_source data).map Prod.fst) := by
  rw [keys_aggregate_by_source]
  constructor
  · intro h
    rw [mem_firstDedup]
    have : sourceKey r = "unknown" := by simp [sourceKey, h]
    exact this ▸ List.mem_map_of_mem sourceKey hr
  · intro s h
    rw [mem_firstDedup]
    have : sourceKey r = s := by simp [sourceKey, h]
    exact this ▸ List.mem_map_of_mem sourceKey hr

/-- Witness for C6_unknown_source_key at a concrete two-record input. -/
theorem C6_unknown_source_key_witness :
    let r1 : Record := ⟨none, none, none, none, none⟩
    let r2 : Record := ⟨none, none, none, none, some "siteA"⟩
    "unknown" ∈ (aggregate_by_source [r1, r2]).map Prod.fst
    ∧ "siteA" ∈ (aggregate_by_source [r1, r2]).map Prod.fst := by
  refine ⟨(C6_unknown_source_key [⟨none, none, none, none, none⟩,
      ⟨none, none, none, none, some "siteA"⟩] ⟨none, none, none, none, none⟩
      (by decide)).1 rfl,
    (C6_unknown_source_key [⟨none, none, none, none, none⟩,
      ⟨none, none, none, none, some "siteA"⟩] ⟨none, none, none, none, some "siteA"⟩
      (by decide)).2 "siteA" rfl⟩

/-- C8 — Unrecognized granularity fallback: for every records list and every
granularity string outside {hourly, daily, weekly}, `aggregate_by_period`
returns exactly the result of the "daily" granularity (the `else` branch of
the period-column assignment repeats the daily rule), and no error is
raised (the embedding is a total function). -/
theorem C8_granularity_fallback (data : List Record) (p : String)
    (h1 : p ≠ "daily") (h2 : p ≠ "weekly") (h3 : p ≠ "hourly") :
    aggregate_by_period data p = aggregate_by_period data "daily" := by
  have htr : truncPeriod p = truncPeriod "daily" := by
    funext t
    simp [truncPeriod, h1, h2, h3]
  have hkey : periodKey p = periodKey "daily" := by
    funext r
    rw [periodKey, periodKey, htr]
  have hgrp : aggregate_group data p = aggregate_group data "daily" := by
    funext k
    rw [aggregate_group, aggregate_group, periodGroup, periodGroup, hkey]
  rw [aggregate_by_period, aggregate_by_period, hkey, hgrp]

/-- Witness for C8_granularity_fallback: the unrecognized granularity
"monthly" on a concrete input agrees with "daily". -/
theorem C8_granularity_fallback_witness :
    aggregate_by_period [⟨some "positive", some 1, some 1, some 90000, none⟩] "monthly"
      = aggregate_by_period [⟨some "positive", some 1, some 1, some 90000, none⟩] "daily" :=
  C8_granularity_fallback [⟨some "positive", some 1, some 1, some 90000, none⟩]
    "monthly" (by decide) (by decide) (by decide)

/-- C4 — Trend threshold boundary: whenever `calculate_trends` reaches its
main path (enough data and a present `average_score` column), a computed
(pre-rounding) change rate of exactly `10.0` or `-10.0` classifies as
"stable"; the direction is "improving" exactly when the computed change rate
is strictly greater than 10, and "declining" exactly when it is strictly less
than -10 (a NaN change rate fails both strict comparisons and is "stable"). -/
theorem C4_trend_threshold (data : List TrendRecord) (w : Nat)
    (h1 : ¬ data.length < w) (h2 : ¬ ∀ r ∈ data, r.average_score = none) :
    ((trendChangeRate data w = some 10 ∨ trendChangeRate data w = some (-10)) →
      (calculate_trends data w).direction = "stable")
    ∧ ((calculate_trends data w).direction = "improving"
        ↔ ∃ c, trendChangeRate data w = some c ∧ 10 < c)
    ∧ ((calculate_trends data w).direction = "declining"
        ↔ ∃ c, trendChangeRate data w = some c ∧ c < -10) := by
  have hall : ¬ (data.all (fun r => r.average_score.isNone) = true) := by
    intro hc
    exact h2 (fun r hr => Option.isNone_iff_eq_none.mp (List.all_eq_true.mp hc r hr))
  have hdir : (calculate_trends data w).direction
      = classifyDirection (trendChangeRate data w) := by
    rw [calculate_trends, if_neg h1, if_neg hall]
  rw [hdir]
  rcases hcr : trendChangeRate data w with _ | c
  · refine ⟨fun h => rfl, ?_, ?_⟩
    · constructor
      · intro h
        exact absurd h (by decide)
      · rintro ⟨c, hc, _⟩
        exact absurd hc (by simp)
    · constructor
      · intro h
        exact absurd h (by decide)
      · rintro ⟨c, hc, _⟩
        exact absurd hc (by simp)
  · rw [classifyDirection]
    constructor
    · rintro (h | h) <;> rw [Option.some_inj.mp h]
      · norm_num
      · norm_num
    constructor
    · constructor
      · intro h
        refine ⟨c, rfl, ?_⟩
        by_contra hc10
        rw [if_neg hc10] at h
        split_ifs at h <;> simp_all
      · rintro ⟨c', hc', h10⟩
        rw [Option.some_inj.mp hc', if_pos h10]
    · constructor
      · intro h
        refine ⟨c, rfl, ?_⟩
        by_contra hcm10
        split_ifs at h <;> simp_all
      · rintro ⟨c', hc', hm10⟩
        have hcc : c = c' := Option.some_inj.mp hc'
        subst hcc
        have hne : ¬ (10 : ℚ) < c := by
          intro hgt
          linarith
        rw [if_neg hne, if_pos hm10]

/-- Witness for C4_trend_threshold: with window 1 and period averages
`[1, 1.1]` the computed change rate is exactly 10 and the direction is
"stable". -/
theorem C4_trend_threshold_witness :
    trendChangeRate [⟨some 1⟩, ⟨some (11/10)⟩] 1 = some 10
    ∧ (calculate_trends [⟨some 1⟩, ⟨some (11/10)⟩] 1).direction = "stable" := by
  refine ⟨by with_unfolding_all decide, ?_⟩
  exact (C4_trend_threshold [⟨some 1⟩, ⟨some (11/10)⟩] 1 (by decide) (by simp)).1
    (Or.inl (by with_unfolding_all decide))

section SourceLemmas

/-- Membership in the by-source result determines the summary: it is the
reduction of the partition of key `s`. -/
theorem mem_aggregate_by_source {data : List Record} {s : String} {summ : SourceSummary}
    (h : (s, summ) ∈ aggregate_by_source data) :
    summ = mkSourceSummary (sourceGroup data s) ∧ s ∈ data.map sourceKey := by
  rw [aggregate_by_source] at h
  obtain ⟨s', hs', heq⟩ := List.mem_map.mp h
  obtain ⟨h1, h2⟩ := Prod.mk.injEq .. ▸ heq
  subst h1
  exact ⟨h2.symm, mem_firstDedup.mp hs'⟩

/-- The partition of a key that occurs in the input is non-empty. -/
theorem sourceGroup_ne_nil {data : List Record} {s : String}
    (h : s ∈ data.map sourceKey) : sourceGroup data s ≠ [] := by
  obtain ⟨r, hr, hrs⟩ := List.mem_map.mp h
  intro hnil
  have : r ∈ sourceGroup data s := by
    rw [sourceGroup, List.mem_filter]
    exact ⟨hr, by simp [hrs]⟩
  rw [hnil] at this
  exact absurd this (List.not_mem_nil r)

theorem lastUpdated_foldl (l : List Record) (a : Nat) :
    l.foldl (fun acc r =>
      let t := r.analyzed_at.getD 0
      match acc with
      | none => some t
      | some m => some (max m t)) (some a)
    = some ((l.map (fun r => r.analyzed_at.getD 0)).foldl max a) := by
  induction l generalizing a with
  | nil => rfl
  | cons r rest ih => exact ih (max a (r.analyzed_at.getD 0))

theorem lastUpdated_cons (r : Record) (rest : List Record) :
    lastUpdated (r :: rest)
    = some ((rest.map (fun x => x.analyzed_at.getD 0)).foldl max (r.analyzed_at.getD 0)) := by
  rw [lastUpdated]
  exact lastUpdated_foldl rest (r.analyzed_at.getD 0)

theorem foldl_max_le_iff {α : Type} [LinearOrder α] (l : List α) (a m : α) :
    l.foldl max a ≤ m ↔ a ≤ m ∧ ∀ x ∈ l, x ≤ m := by
  induction l generalizing a with
  | nil => simp
  | cons x t ih =>
    rw [List.foldl_cons, ih]
    constructor
    · rintro ⟨hax, ht⟩
      exact ⟨le_trans (le_max_left a x) hax,
        fun y hy => by
          rcases List.mem_cons.mp hy with h | h
          · exact h ▸ le_trans (le_max_right a x) hax
          · exact ht y h⟩
    · rintro ⟨ha, ht⟩
      exact ⟨max_le ha (ht x (List.mem_cons_self x t)),
        fun y hy => ht y (List.mem_cons_of_mem x hy)⟩

theorem foldl_max_mem {α : Type} [LinearOrder α] (l : List α) (a : α) :
    l.foldl max a = a ∨ l.foldl max a ∈ l := by
  induction l generalizing a with
  | nil => exact Or.inl rfl
  | cons x t ih =>
    rw [List.foldl_cons]
    rcases ih (max a x) with h | h
    · rcases max_choice a x with hm | hm
      · exact Or.inl (h.trans hm)
      · rw [h, hm]
        exact Or.inr (List.mem_cons_self x t)
    · exact Or.inr (List.mem_cons_of_mem x h)

end SourceLemmas

/-- C5 — Per-source `last_updated`: for every summary in the by-source result,
`last_updated` is the maximum of the partition records' analysis timestamps
with an absent timestamp contributing the minimum representable value (0): it
is never `none` for a (necessarily non-empty) partition, it bounds every
record's substituted timestamp from above, and as soon as at least one record
carries a timestamp it equals the maximum of the *present* timestamps — a
record without a timestamp never determines it. -/
theorem C5_last_updated (data : List Record) (s : String) (summ : SourceSummary)
    (hmem : (s, summ) ∈ aggregate_by_source data) :
    (∃ m, summ.last_updated = some m)
    ∧ (∀ m, summ.last_updated = some m →
        ∀ r ∈ sourceGroup data s, r.analyzed_at.getD 0 ≤ m)
    ∧ ((sourceGroup data s).filterMap Record.analyzed_at ≠ [] →
        ∃ m, summ.last_updated = some m
          ∧ m ∈ (sourceGroup data s).filterMap Record.analyzed_at
          ∧ ∀ t ∈ (sourceGroup data s).filterMap Record.analyzed_at, t ≤ m) := by
  obtain ⟨hsumm, hkey⟩ := mem_aggregate_by_source hmem
  have hne : sourceGroup data s ≠ [] := sourceGroup_ne_nil hkey
  obtain ⟨r0, rest, hcons⟩ := List.exists_cons_of_ne_nil hne
  have hlu : summ.last_updated
      = some ((rest.map (fun x => x.analyzed_at.getD 0)).foldl max (r0.analyzed_at.getD 0)) := by
    rw [hsumm]
    show lastUpdated (sourceGroup data s) = _
    rw [hcons, lastUpdated_cons]
  set M := (rest.map (fun x => x.analyzed_at.getD 0)).foldl max (r0.analyzed_at.getD 0) with hM
  have hub : ∀ r ∈ sourceGroup data s, r.analyzed_at.getD 0 ≤ M := by
    intro r hr
    have hle := (foldl_max_le_iff (rest.map (fun x => x.analyzed_at.getD 0))
      (r0.analyzed_at.getD 0) M).mp (le_refl M)
    rw [hcons] at hr
    rcases List.mem_cons.mp hr with h | h
    · exact h ▸ hle.1
    · exact hle.2 _ (List.mem_map_of_mem _ h)
  refine ⟨⟨M, hlu⟩, ?_, ?_⟩
  · intro m hm
    rw [hlu] at hm
    exact Option.some_inj.mp hm ▸ hub
  · intro hpres
    refine ⟨M, hlu, ?_, ?_⟩
    · -- M is attained by some record; if that record lacks a timestamp then
      -- M = 0, and any present timestamp is then 0 as well.
      have hmem' : M = r0.analyzed_at.getD 0
          ∨ M ∈ rest.map (fun x => x.analyzed_at.getD 0) :=
        foldl_max_mem _ _
      have hMrec : ∃ r ∈ sourceGroup data s, r.analyzed_at.getD 0 = M := by
        rcases hmem' with h | h
        · exact ⟨r0, hcons ▸ List.mem_cons_self r0 rest, h.symm⟩
        · obtain ⟨r, hr, hrM⟩ := List.mem_map.mp h
          exact ⟨r, hcons ▸ List.mem_cons_of_mem r0 hr, hrM⟩
      obtain ⟨r, hr, hrM⟩ := hMrec
      rcases hres : r.analyzed_at with _ | t
      · -- the attaining record has no timestamp: M = 0, so every present
        -- timestamp is 0 and any of them witnesses membership
        rw [hres] at hrM
        simp only [Option.getD_none] at hrM
        obtain ⟨t0, ht0⟩ := List.exists_mem_of_ne_nil _ hpres
        obtain ⟨r', hr', hres'⟩ := List.mem_filterMap.mp ht0
        have : t0 ≤ M := by
          have := hub r' hr'
          rw [hres'] at this
          simpa using this
        have ht00 : t0 = M := Nat.le_antisymm this (hrM ▸ Nat.zero_le t0)
        exact ht00 ▸ ht0
      · rw [hres] at hrM
        simp only [Option.getD_some] at hrM
        exact List.mem_filterMap.mpr ⟨r, hr, by rw [hres, hrM]⟩
    · intro t ht
      obtain ⟨r, hr, hres⟩ := List.mem_filterMap.mp ht
      have := hub r hr
      rw [hres] at this
      simpa using this

/-- Witness for C5_last_updated on a concrete two-record partition where one
record lacks the timestamp: `last_updated` is a present timestamp. -/
theorem C5_last_updated_witness :
    let d : List Record := [⟨none, none, none, none, some "a"⟩,
      ⟨none, none, none, some 5, some "a"⟩]
    ∃ m, (mkSourceSummary (sourceGroup d "a")).last_updated = some m
      ∧ m ∈ (sourceGroup d "a").filterMap Record.analyzed_at
      ∧ ∀ t ∈ (sourceGroup d "a").filterMap Record.analyzed_at, t ≤ m := by
  exact (C5_last_updated [⟨none, none, none, none, some "a"⟩,
      ⟨none, none, none, some 5, some "a"⟩] "a"
      (mkSourceSummary (sourceGroup [⟨none, none, none, none, some "a"⟩,
        ⟨none, none, none, some 5, some "a"⟩] "a"))
      (by with_unfolding_all decide)).2.2 (by decide)

section CountLemmas

/-- For three pairwise distinct values the counts never exceed the length. -/
theorem count_three_le {α : Type} [DecidableEq α] (a b c : α)
    (hab : a ≠ b) (hac : a ≠ c) (hbc : b ≠ c) :
    ∀ l : List α, l.count a + l.count b + l.count c ≤ l.length := by
  intro l
  induction l with
  | nil => simp
  | cons x t ih =>
    simp only [List.count_cons, List.length_cons, beq_iff_eq]
    rcases eq_or_ne x a with hxa | hxa
    · subst hxa
      rw [if_pos rfl, if_neg hab, if_neg hac]
      omega
    · rw [if_neg hxa]
      rcases eq_or_ne x b with hxb | hxb
      · subst hxb
        rw [if_pos rfl, if_neg hbc]
        omega
      · rw [if_neg hxb]
        rcases eq_or_ne x c with hxc | hxc
        · subst hxc
          rw [if_pos rfl]
          omega
        · rw [if_neg hxc]
          omega

end CountLemmas

/-- The three named counts of a sentiment summary never exceed the number of
summarized items. -/
theorem get_sentiment_summary_counts_le (items : List Record) :
    (get_sentiment_summary items).positive + (get_sentiment_summary items).negative
      + (get_sentiment_summary items).neutral ≤ items.length := by
  rw [get_sentiment_summary]
  by_cases h : items.isEmpty
  · rw [if_pos h]
    exact Nat.zero_le _
  · rw [if_neg h]
    show (items.map sentimentLabel).count "positive"
        + (items.map sentimentLabel).count "negative"
        + (items.map sentimentLabel).count "neutral" ≤ items.length
    have hcnt := count_three_le "positive" "negative" "neutral"
      (by decide) (by decide) (by decide) (items.map sentimentLabel)
    rw [List.length_map] at hcnt
    exact hcnt

/-- C10 — Source sentiment summaries count only records that carry the
`sentiment` key: the three named counts sum to at most `total_items`, and a
(necessarily non-empty) partition in which no record of *that partition*
carries a sentiment — other partitions of the same input may well carry one —
receives the all-zero summary with dominant "neutral" even though
`total_items > 0`. -/
theorem C10_source_summary_counts (data : List Record) (s : String) (summ : SourceSummary)
    (hmem : (s, summ) ∈ aggregate_by_source data) :
    (summ.sentiment_summary.positive + summ.sentiment_summary.negative
      + summ.sentiment_summary.neutral ≤ summ.total_items)
    ∧ ((∀ r ∈ sourceGroup data s, r.sentiment = none) →
        summ.sentiment_summary =
          { positive := 0, negative := 0, neutral := 0
            positive_pct := 0, negative_pct := 0, neutral_pct := 0, dominant := "neutral" }
        ∧ 0 < summ.total_items) := by
  obtain ⟨hsumm, hkey⟩ := mem_aggregate_by_source hmem
  have hne : sourceGroup data s ≠ [] := sourceGroup_ne_nil hkey
  subst hsumm
  constructor
  · show (get_sentiment_summary ((sourceGroup data s).filter
        (fun r => r.sentiment.isSome))).positive + _ + _ ≤ (sourceGroup data s).length
    exact le_trans (get_sentiment_summary_counts_le _) (List.length_filter_le _ _)
  · intro hnos
    have hsents : (sourceGroup data s).filter (fun r => r.sentiment.isSome) = [] := by
      rw [List.filter_eq_nil_iff]
      intro r hr
      rw [hnos r hr]
      simp
    constructor
    · show get_sentiment_summary ((sourceGroup data s).filter
        (fun r => r.sentiment.isSome)) = _
      rw [hsents]
      rfl
    · show 0 < (sourceGroup data s).length
      cases hg : sourceGroup data s with
      | nil => exact absurd hg hne
      | cons r t => simp

/-- Witness for C10_source_summary_counts on a mixed input: the partition of
source "b" carries no sentiment and gets the zero summary, even though the
partition of source "a" in the same input does carry one. -/
theorem C10_source_summary_counts_witness :
    let d : List Record := [⟨some "positive", some 1, none, none, some "a"⟩,
      ⟨none, none, none, none, some "b"⟩, ⟨none, some 1, none, none, some "b"⟩]
    let summ := mkSourceSummary (sourceGroup d "b")
    (summ.sentiment_summary.positive + summ.sentiment_summary.negative
      + summ.sentiment_summary.neutral ≤ summ.total_items)
    ∧ (summ.sentiment_summary =
        { positive := 0, negative := 0, neutral := 0
          positive_pct := 0, negative_pct := 0, neutral_pct := 0, dominant := "neutral" }
      ∧ 0 < summ.total_items) := by
  have h := C10_source_summary_counts [⟨some "positive", some 1, none, none, some "a"⟩,
      ⟨none, none, none, none, some "b"⟩, ⟨none, some 1, none, none, some "b"⟩] "b"
      (mkSourceSummary (sourceGroup [⟨some "positive", some 1, none, none, some "a"⟩,
        ⟨none, none, none, none, some "b"⟩, ⟨none, some 1, none, none, some "b"⟩] "b"))
      (by with_unfolding_all decide)
  exact ⟨h.1, h.2 (by decide)⟩

section PartitionLemmas

theorem mapCongrMem {α β : Type} (f g : α → β) :
    ∀ l : List α, (∀ x ∈ l, f x = g x) → l.map f = l.map g := by
  intro l
  induction l with
  | nil => intro _; rfl
  | cons x t ih =>
    intro h
    rw [List.map_cons, List.map_cons, h x (List.mem_cons_self x t),
      ih (fun y hy => h y (List.mem_cons_of_mem x hy))]

/-- The number of occurrences of `a` in `l`, as a filter length (kept
independent of any `BEq` instance). -/
def keyCount {α : Type} [DecidableEq α] (a : α) (l : List α) : Nat :=
  (l.filter (fun x => x = a)).length

theorem keyCount_cons {α : Type} [DecidableEq α] (a x : α) (t : List α) :
    keyCount a (x :: t) = keyCount a t + if x = a then 1 else 0 := by
  rw [keyCount, keyCount]
  by_cases h : x = a
  · rw [List.filter_cons_of_pos (by simp [h]), List.length_cons, if_pos h]
  · rw [List.filter_cons_of_neg (by simp [h]), if_neg h, Nat.add_zero]

theorem keyCount_filter_ne {α : Type} [DecidableEq α] (a : α) :
    ∀ (l : List α) (b : α), b ≠ a →
      keyCount b (l.filter (fun x => x ≠ a)) = keyCount b l := by
  intro l
  induction l with
  | nil => intro b _; rfl
  | cons x t ih =>
    intro b hba
    by_cases hxa : x = a
    · rw [List.filter_cons_of_neg (by simp [hxa]), ih b hba, keyCount_cons,
        if_neg (fun h => hba (h.symm.trans hxa)), Nat.add_zero]
    · rw [List.filter_cons_of_pos (by simp [hxa]), keyCount_cons, keyCount_cons, ih b hba]

theorem length_filter_ne_add_keyCount {α : Type} [DecidableEq α] (a : α) :
    ∀ l : List α, (l.filter (fun x => x ≠ a)).length + keyCount a l = l.length := by
  intro l
  induction l with
  | nil => rfl
  | cons x t ih =>
    by_cases hxa : x = a
    · rw [List.filter_cons_of_neg (by simp [hxa]), keyCount_cons, if_pos hxa,
        List.length_cons, ← ih]
      omega
    · rw [List.filter_cons_of_pos (by simp [hxa]), keyCount_cons, if_neg hxa,
        List.length_cons, List.length_cons, ← ih]
      omega

theorem sum_keyCounts_firstDedup_aux {α : Type} [DecidableEq α] :
    ∀ (n : Nat) (l : List α), l.length ≤ n →
      ((firstDedup l).map (fun b => keyCount b l)).sum = l.length := by
  intro n
  induction n with
  | zero =>
    intro l hl
    have : l = [] := List.length_eq_zero.mp (Nat.le_zero.mp hl)
    subst this
    rfl
  | succ n ih =>
    intro l hl
    match l with
    | [] => rfl
    | a :: m =>
      rw [firstDedup_cons, List.map_cons, List.sum_cons]
      set m' := m.filter (fun x => x ≠ a) with hm'
      have hm'len : m'.length ≤ n := by
        have h1 : m'.length ≤ m.length := List.length_filter_le _ _
        have h2 : m.length ≤ n := Nat.le_of_succ_le_succ hl
        omega
      have hmap : (firstDedup m').map (fun b => keyCount b (a :: m))
          = (firstDedup m').map (fun b => keyCount b m') := by
        apply mapCongrMem
        intro b hb
        have hbm' : b ∈ m' := mem_firstDedup.mp hb
        have hbne : b ≠ a := by
          have := List.mem_filter.mp hbm'
          simpa using this.2
        rw [keyCount_cons, if_neg (fun h => hbne h.symm), Nat.add_zero, hm',
          keyCount_filter_ne a m b hbne]
      have hlen := length_filter_ne_add_keyCount a m
      rw [← hm'] at hlen
      rw [hmap, ih m' hm'len, keyCount_cons, if_pos rfl, List.length_cons]
      omega

theorem sum_keyCounts_firstDedup {α : Type} [DecidableEq α] (l : List α) :
    ((firstDedup l).map (fun b => keyCount b l)).sum = l.length :=
  sum_keyCounts_firstDedup_aux l.length l (Nat.le_refl _)

theorem insertBy_perm {α : Type} (le : α → α → Bool) (x : α) :
    ∀ l : List α, (insertBy le x l).Perm (x :: l) := by
  intro l
  induction l with
  | nil => exact List.Perm.refl _
  | cons y t ih =>
    rw [insertBy]
    by_cases h : le x y
    · rw [if_pos h]
    · rw [if_neg h]
      exact List.Perm.trans (List.Perm.cons y ih) (List.Perm.swap x y t)

theorem sortBy_perm {α : Type} (le : α → α → Bool) :
    ∀ l : List α, (sortBy le l).Perm l := by
  intro l
  induction l with
  | nil => exact List.Perm.refl _
  | cons x t ih =>
    show (insertBy le x (sortBy le t)).Perm (x :: t)
    exact List.Perm.trans (insertBy_perm le x (sortBy le t)) (List.Perm.cons x ih)

theorem length_filter_key {α β : Type} [DecidableEq β] (f : α → β) (s : β) :
    ∀ data : List α, (data.filter (fun r => f r = s)).length = keyCount s (data.map f) := by
  intro data
  induction data with
  | nil => rfl
  | cons r t ih =>
    rw [List.map_cons, keyCount_cons]
    by_cases h : f r = s
    · rw [List.filter_cons_of_pos (by simp [h]), List.length_cons, ih, if_pos h]
    · rw [List.filter_cons_of_neg (by simp [h]), ih, if_neg h, Nat.add_zero]

theorem keyCount_some_filterMap_id {β : Type} [DecidableEq β] (k : β) :
    ∀ m : List (Option β), (∀ x ∈ m, x ≠ none) →
      keyCount (some k) m = keyCount k (m.filterMap id) := by
  intro m
  induction m with
  | nil => intro _; rfl
  | cons x t ih =>
    intro h
    match x with
    | none => exact absurd rfl (h none (List.mem_cons_self none t))
    | some b =>
      have hfm : (some b :: t).filterMap id = b :: t.filterMap id := rfl
      rw [hfm, keyCount_cons, keyCount_cons,
        ih (fun y hy => h y (List.mem_cons_of_mem _ hy))]
      by_cases hbk : b = k
      · rw [if_pos (by rw [hbk]), if_pos hbk]
      · rw [if_neg (fun hcon => hbk (Option.some_inj.mp hcon)), if_neg hbk]

theorem length_filterMap_id {β : Type} :
    ∀ m : List (Option β), (∀ x ∈ m, x ≠ none) → (m.filterMap id).length = m.length := by
  intro m
  induction m with
  | nil => intro _; rfl
  | cons x t ih =>
    intro h
    match x with
    | none => exact absurd rfl (h none (List.mem_cons_self none t))
    | some b =>
      have hfm : (some b :: t).filterMap id = b :: t.filterMap id := rfl
      rw [hfm, List.length_cons, List.length_cons,
        ih (fun y hy => h y (List.mem_cons_of_mem _ hy))]

end PartitionLemmas

theorem sum_total_items_by_source (data : List Record) :
    ((aggregate_by_source data).map (fun e => e.2.total_items)).sum = data.length := by
  rw [aggregate_by_source, List.map_map]
  have hcomp : ((fun e : String × SourceSummary => e.2.total_items) ∘
      (fun s => (s, mkSourceSummary (sourceGroup data s))))
      = fun s => keyCount s (data.map sourceKey) := by
    funext s
    show (sourceGroup data s).length = _
    rw [sourceGroup, length_filter_key sourceKey s data]
  rw [hcomp, sum_keyCounts_firstDedup (data.map sourceKey), List.length_map]

theorem sum_total_items_by_period (data : List Record) (p : String)
    (hne : data ≠ []) (hts : ∀ r ∈ data, r.analyzed_at.isSome) :
    ((aggregate_by_period data p).map (fun b => b.total_items)).sum = data.length := by
  have hempty : data.isEmpty = false := by
    cases data with
    | nil => exact absurd rfl hne
    | cons r t => rfl
  have hany : (data.any fun r => r.analyzed_at.isSome) = true := by
    cases data with
    | nil => exact absurd rfl hne
    | cons r t =>
      exact List.any_eq_true.mpr ⟨r, List.mem_cons_self r t, hts r (List.mem_cons_self r t)⟩
  rw [aggregate_by_period, if_neg (by rw [hempty]; exact Bool.false_ne_true),
    if_neg (by simp [hany]), List.map_map]
  have hcomp : ((fun b : PeriodBucket => b.total_items) ∘ aggregate_group data p)
      = fun k => keyCount (some k) (data.map (periodKey p)) := by
    funext k
    show (periodGroup data p k).length = _
    rw [periodGroup, length_filter_key (periodKey p) (some k) data]
  rw [hcomp]
  set L := data.filterMap (periodKey p) with hL
  set m := data.map (periodKey p) with hm
  have hperm := (sortBy_perm (fun a b => a ≤ b) (firstDedup L)).map
    (fun k => keyCount (some k) m)
  rw [hperm.sum_eq]
  have hnone : ∀ x ∈ m, x ≠ none := by
    intro x hx
    obtain ⟨r, hr, hrx⟩ := List.mem_map.mp hx
    have hs := hts r hr
    rw [← hrx, periodKey]
    rcases hres : r.analyzed_at with _ | t
    · rw [hres] at hs
      exact absurd hs (by simp)
    · simp
  have hLm : L = m.filterMap id := by
    rw [hL, hm, List.filterMap_map]
    rfl
  have hpt : (firstDedup L).map (fun k => keyCount (some k) m)
      = (firstDedup L).map (fun k => keyCount k L) := by
    apply mapCongrMem
    intro k _
    rw [keyCount_some_filterMap_id k m hnone, ← hLm]
  rw [hpt, sum_keyCounts_firstDedup L, hLm, length_filterMap_id m hnone, hm, List.length_map]

/-- C1 counterexample: a two-record input where one record lacks the
`analyzed_at` field.  `pd.to_datetime` turns the missing field into `NaT` and
`groupby` silently drops the `NaT` key, so the bucket counts sum to 1, not 2 —
a record is silently dropped, contradicting partition completeness for
`aggregate_by_period` as stated. -/
theorem C1_counterexample :
    ((aggregate_by_period [⟨none, some (1/2), none, some 100, none⟩,
        ⟨none, none, none, none, none⟩] "daily").map (fun b => b.total_items)).sum
      ≠ ([⟨none, some (1/2), none, some 100, none⟩,
        ⟨none, none, none, none, none⟩] : List Record).length := by
  with_unfolding_all decide

/-- C1 amended — Partition completeness: the sum of `total_items` over the
by-source summaries always equals the input length; for by-period aggregation
(at any granularity string, including unrecognized ones) the same holds
provided every record carries the `analyzed_at` field — a record lacking it is
silently dropped with the `NaT` group key, and an input where no record
carries it yields the empty result. -/
theorem C1_partition_completeness (data : List Record) (p : String) :
    (((aggregate_by_source data).map (fun e => e.2.total_items)).sum = data.length)
    ∧ (data ≠ [] → (∀ r ∈ data, r.analyzed_at.isSome) →
        ((aggregate_by_period data p).map (fun b => b.total_items)).sum = data.length) :=
  ⟨sum_total_items_by_source data,
    fun h1 h2 => sum_total_items_by_period data p h1 h2⟩

/-- Witness for C1_partition_completeness at a concrete two-record input with
an unrecognized granularity. -/
theorem C1_partition_completeness_witness :
    (((aggregate_by_source [⟨some "positive", some 1, none, some 0, some "a"⟩,
        ⟨none, none, none, some 90000, none⟩]).map (fun e => e.2.total_items)).sum = 2)
    ∧ (((aggregate_by_period [⟨some "positive", some 1, none, some 0, some "a"⟩,
        ⟨none, none, none, some 90000, none⟩] "monthly").map
          (fun b => b.total_items)).sum = 2) :=
  ⟨(C1_partition_completeness [⟨some "positive", some 1, none, some 0, some "a"⟩,
      ⟨none, none, none, some 90000, none⟩] "monthly").1,
    (C1_partition_completeness [⟨some "positive", some 1, none, some 0, some "a"⟩,
      ⟨none, none, none, some 90000, none⟩] "monthly").2 (by decide) (by decide)⟩

section BucketLemmas

theorem le_foldl_min {α : Type} [LinearOrder α] (l : List α) (a m : α) :
    m ≤ l.foldl min a ↔ m ≤ a ∧ ∀ x ∈ l, m ≤ x := by
  induction l generalizing a with
  | nil => simp
  | cons x t ih =>
    rw [List.foldl_cons, ih]
    constructor
    · rintro ⟨hax, ht⟩
      exact ⟨le_trans hax (min_le_left a x),
        fun y hy => by
          rcases List.mem_cons.mp hy with h | h
          · exact h ▸ le_trans hax (min_le_right a x)
          · exact ht y h⟩
    · rintro ⟨ha, ht⟩
      exact ⟨le_min ha (ht x (List.mem_cons_self x t)),
        fun y hy => ht y (List.mem_cons_of_mem x hy)⟩

theorem foldl_min_mem {α : Type} [LinearOrder α] (l : List α) (a : α) :
    l.foldl min a = a ∨ l.foldl min a ∈ l := by
  induction l generalizing a with
  | nil => exact Or.inl rfl
  | cons x t ih =>
    rw [List.foldl_cons]
    rcases ih (min a x) with h | h
    · rcases min_choice a x with hm | hm
      · exact Or.inl (h.trans hm)
      · rw [h, hm]
        exact Or.inr (List.mem_cons_self x t)
    · exact Or.inr (List.mem_cons_of_mem x h)

/-- A list whose images are all present equals the `some`-image of its
`filterMap`. -/
theorem map_eq_filterMap_some {α β : Type} (f : α → Option β) :
    ∀ l : List α, (∀ x ∈ l, (f x).isSome) → l.map f = (l.filterMap f).map some := by
  intro l
  induction l with
  | nil => intro _; rfl
  | cons x t ih =>
    intro h
    have hx := h x (List.mem_cons_self x t)
    rcases hfx : f x with _ | b
    · rw [hfx] at hx
      exact absurd hx (by simp)
    · have hfm : (x :: t).filterMap f = b :: t.filterMap f := by
        rw [List.filterMap_cons, hfx]
      rw [List.map_cons, hfx, hfm, List.map_cons,
        ih (fun y hy => h y (List.mem_cons_of_mem x hy))]

theorem pySum_foldl_some (vs : List ℚ) :
    ∀ a : ℚ, (vs.map some).foldl (fun acc v => match acc, v with
      | some a, some b => some (a + b)
      | _, _ => none) (some a) = some (a + vs.sum) := by
  induction vs with
  | nil =>
    intro a
    show some a = some (a + 0)
    rw [add_zero]
  | cons v t ih =>
    intro a
    show (t.map some).foldl _ (some (a + v)) = _
    rw [ih (a + v), List.sum_cons, add_assoc]

theorem pySum_map_some (vs : List ℚ) : pySum (vs.map some) = some vs.sum := by
  rw [pySum, pySum_foldl_some vs 0, zero_add]

theorem pyMin_foldl_some (xs : List ℚ) :
    ∀ a : ℚ, (xs.map some).foldl (fun acc v => if pyLtQ v acc then v else acc) (some a)
      = some (xs.foldl min a) := by
  induction xs with
  | nil => intro a; rfl
  | cons x t ih =>
    intro a
    show (t.map some).foldl _ (if pyLtQ (some x) (some a) then some x else some a) = _
    have hstep : (if pyLtQ (some x) (some a) then some x else some a) = some (min a x) := by
      rw [pyLtQ]
      by_cases h : x < a
      · rw [if_pos (by simpa using h), min_eq_right (le_of_lt h)]
      · rw [if_neg (by simpa using h), min_eq_left (le_of_not_lt h)]
    rw [hstep, ih (min a x), List.foldl_cons]

theorem pyMax_foldl_some (xs : List ℚ) :
    ∀ a : ℚ, (xs.map some).foldl (fun acc v => if pyLtQ acc v then v else acc) (some a)
      = some (xs.foldl max a) := by
  induction xs with
  | nil => intro a; rfl
  | cons x t ih =>
    intro a
    show (t.map some).foldl _ (if pyLtQ (some a) (some x) then some x else some a) = _
    have hstep : (if pyLtQ (some a) (some x) then some x else some a) = some (max a x) := by
      rw [pyLtQ]
      by_cases h : a < x
      · rw [if_pos (by simpa using h), max_eq_right (le_of_lt h)]
      · rw [if_neg (by simpa using h), max_eq_left (le_of_not_lt h)]
    rw [hstep, ih (max a x), List.foldl_cons]

/-- Membership in the by-period result determines the bucket: it is the
reduction of the group keyed by its own `period`, and that key occurs among
the records' period keys. -/
theorem mem_aggregate_by_period {data : List Record} {p : String} {b : PeriodBucket}
    (hb : b ∈ aggregate_by_period data p) :
    b = aggregate_group data p b.period ∧ b.period ∈ data.filterMap (periodKey p) := by
  rw [aggregate_by_period] at hb
  split_ifs at hb with h1 h2
  · exact absurd hb (List.not_mem_nil b)
  · exact absurd hb (List.not_mem_nil b)
  · obtain ⟨k, hk, heq⟩ := List.mem_map.mp hb
    have hper : (aggregate_group data p k).period = k := rfl
    have hbp : b.period = k := by rw [← heq, hper]
    constructor
    · rw [hbp, ← heq]
    · rw [hbp]
      exact mem_firstDedup.mp
        ((sortBy_perm (fun a b => a ≤ b) (firstDedup (data.filterMap (periodKey p)))).mem_iff.mp hk)

theorem periodGroup_ne_nil {data : List Record} {p : String} {k : Nat}
    (h : k ∈ data.filterMap (periodKey p)) : periodGroup data p k ≠ [] := by
  obtain ⟨r, hr, hrk⟩ := List.mem_filterMap.mp h
  have : r ∈ periodGroup data p k := by
    rw [periodGroup, List.mem_filter]
    exact ⟨hr, by simp [hrk]⟩
  exact List.ne_nil_of_mem this

end BucketLemmas

/-- C2 counterexample.  Input: one record with `score = 1/2` and one without,
both on day 0, plus one scoreless record on day 1.  Because some record of the
input carries `score`, the column exists and the missing cells are NaN:
`sum(scores)` is NaN, so the day-0 bucket's `average_score` is NaN rather
than the mean `1/2` of the present values, and the day-1 bucket's `min_score`
is NaN rather than null.  Both clauses of the claim fail. -/
theorem C2_counterexample :
    ¬ (∀ b ∈ aggregate_by_period [⟨none, some (1/2), none, some 100, none⟩,
          ⟨none, none, none, some 200, none⟩, ⟨none, none, none, some 86500, none⟩] "daily",
        b.average_score = some
          (((periodGroup [⟨none, some (1/2), none, some 100, none⟩,
              ⟨none, none, none, some 200, none⟩, ⟨none, none, none, some 86500, none⟩]
              "daily" b.period).filterMap Record.score).sum
            / (((periodGroup [⟨none, some (1/2), none, some 100, none⟩,
              ⟨none, none, none, some 200, none⟩, ⟨none, none, none, some 86500, none⟩]
              "daily" b.period).filterMap Record.score).length : ℚ)))
    ∧ ¬ (∀ b ∈ aggregate_by_period [⟨none, some (1/2), none, some 100, none⟩,
          ⟨none, none, none, some 200, none⟩, ⟨none, none, none, some 86500, none⟩] "daily",
        (periodGroup [⟨none, some (1/2), none, some 100, none⟩,
            ⟨none, none, none, some 200, none⟩, ⟨none, none, none, some 86500, none⟩]
            "daily" b.period).filterMap Record.score = [] → b.min_score = none) := by
  constructor
  · intro h
    have hx := h (aggregate_group [⟨none, some (1/2), none, some 100, none⟩,
      ⟨none, none, none, some 200, none⟩, ⟨none, none, none, some 86500, none⟩] "daily" 0)
      (by with_unfolding_all decide)
    revert hx
    with_unfolding_all decide
  · intro h
    have hx := h (aggregate_group [⟨none, some (1/2), none, some 100, none⟩,
      ⟨none, none, none, some 200, none⟩, ⟨none, none, none, some 86500, none⟩] "daily" 1)
      (by with_unfolding_all decide)
    revert hx
    with_unfolding_all decide

theorem pyMin_cons (x : Option ℚ) (rest : List (Option ℚ)) :
    pyMin (x :: rest) = some (rest.foldl (fun acc v => if pyLtQ v acc then v else acc) x) := rfl

theorem pyMax_cons (x : Option ℚ) (rest : List (Option ℚ)) :
    pyMax (x :: rest) = some (rest.foldl (fun acc v => if pyLtQ acc v then v else acc) x) := rfl

theorem aggregate_group_stats (data : List Record) (p : String) (k : Nat)
    (hgne : periodGroup data p k ≠ []) :
    ((∀ r ∈ periodGroup data p k, r.score.isSome) →
      (aggregate_group data p k).average_score
          = some (((periodGroup data p k).filterMap Record.score).sum
            / (((periodGroup data p k).filterMap Record.score).length : ℚ))
      ∧ (∃ m, (aggregate_group data p k).min_score = some (some m)
          ∧ m ∈ (periodGroup data p k).filterMap Record.score
          ∧ ∀ x ∈ (periodGroup data p k).filterMap Record.score, m ≤ x)
      ∧ (∃ m, (aggregate_group data p k).max_score = some (some m)
          ∧ m ∈ (periodGroup data p k).filterMap Record.score
          ∧ ∀ x ∈ (periodGroup data p k).filterMap Record.score, x ≤ m))
    ∧ ((∀ r ∈ periodGroup data p k, r.confidence.isSome) →
      (aggregate_group data p k).average_confidence
          = some (((periodGroup data p k).filterMap Record.confidence).sum
            / (((periodGroup data p k).filterMap Record.confidence).length : ℚ)))
    ∧ ((∀ r ∈ data, r.score = none) →
      (aggregate_group data p k).average_score = some 0
      ∧ (aggregate_group data p k).min_score = none
      ∧ (aggregate_group data p k).max_score = none) := by
  obtain ⟨r0, hr0⟩ := List.exists_mem_of_ne_nil _ hgne
  have hr0d : r0 ∈ data := by
    rw [periodGroup] at hr0
    exact List.mem_of_mem_filter hr0
  have hav : (aggregate_group data p k).average_score
      = listAverage (groupColumn data (periodGroup data p k) Record.score) := rfl
  have hmi : (aggregate_group data p k).min_score
      = pyMin (groupColumn data (periodGroup data p k) Record.score) := rfl
  have hma : (aggregate_group data p k).max_score
      = pyMax (groupColumn data (periodGroup data p k) Record.score) := rfl
  have havc : (aggregate_group data p k).average_confidence
      = listAverage (groupColumn data (periodGroup data p k) Record.confidence) := rfl
  refine ⟨?_, ?_, ?_⟩
  · intro hall
    have hcol : (data.any fun r => r.score.isSome) = true :=
      List.any_eq_true.mpr ⟨r0, hr0d, hall r0 hr0⟩
    have hscores : groupColumn data (periodGroup data p k) Record.score
        = ((periodGroup data p k).filterMap Record.score).map some := by
      rw [groupColumn, if_pos hcol]
      exact map_eq_filterMap_some Record.score _ hall
    set vals := (periodGroup data p k).filterMap Record.score with hvals
    have hvne : vals ≠ [] := by
      have hs := hall r0 hr0
      rcases hsc : r0.score with _ | v
      · rw [hsc] at hs
        exact absurd hs (by simp)
      · exact List.ne_nil_of_mem (List.mem_filterMap.mpr ⟨r0, hr0, hsc⟩)
    obtain ⟨v, vs, hcons⟩ := List.exists_cons_of_ne_nil hvne
    refine ⟨?_, ?_, ?_⟩
    · rw [hav, hscores, listAverage,
        if_neg (by rw [hcons]; simp), pySum_map_some, List.length_map]
      rfl
    · rw [hmi, hscores, hcons, List.map_cons, pyMin_cons, pyMin_foldl_some]
      refine ⟨vs.foldl min v, rfl, ?_, ?_⟩
      · rcases foldl_min_mem vs v with h | h
        · rw [h]
          exact List.mem_cons_self v vs
        · exact List.mem_cons_of_mem v h
      · intro x hx
        have hle := (le_foldl_min vs v (vs.foldl min v)).mp (le_refl _)
        rcases List.mem_cons.mp hx with h | h
        · exact h ▸ hle.1
        · exact hle.2 x h
    · rw [hma, hscores, hcons, List.map_cons, pyMax_cons, pyMax_foldl_some]
      refine ⟨vs.foldl max v, rfl, ?_, ?_⟩
      · rcases foldl_max_mem vs v with h | h
        · rw [h]
          exact List.mem_cons_self v vs
        · exact List.mem_cons_of_mem v h
      · intro x hx
        have hle := (foldl_max_le_iff vs v (vs.foldl max v)).mp (le_refl _)
        rcases List.mem_cons.mp hx with h | h
        · exact h ▸ hle.1
        · exact hle.2 x h
  · intro hall
    have hcol : (data.any fun r => r.confidence.isSome) = true :=
      List.any_eq_true.mpr ⟨r0, hr0d, hall r0 hr0⟩
    have hconfs : groupColumn data (periodGroup data p k) Record.confidence
        = ((periodGroup data p k).filterMap Record.confidence).map some := by
      rw [groupColumn, if_pos hcol]
      exact map_eq_filterMap_some Record.confidence _ hall
    have hvne : (periodGroup data p k).filterMap Record.confidence ≠ [] := by
      have hs := hall r0 hr0
      rcases hsc : r0.confidence with _ | v
      · rw [hsc] at hs
        exact absurd hs (by simp)
      · exact List.ne_nil_of_mem (List.mem_filterMap.mpr ⟨r0, hr0, hsc⟩)
    obtain ⟨v, vs, hcons⟩ := List.exists_cons_of_ne_nil hvne
    rw [havc, hconfs, listAverage, if_neg (by rw [hcons]; simp),
      pySum_map_some, List.length_map]
    rfl
  · intro hnone
    have hcol : (data.any fun r => r.score.isSome) = false := by
      rw [List.any_eq_false]
      intro r hr
      rw [hnone r hr]
      simp
    have hsc : groupColumn data (periodGroup data p k) Record.score = [] := by
      rw [groupColumn, if_neg (by rw [hcol]; simp)]
    exact ⟨by rw [hav, hsc]; rfl, by rw [hmi, hsc]; rfl, by rw [hma, hsc]; rfl⟩

/-- C2 amended — Bucket statistics: for every bucket of `aggregate_by_period`,
when every record of the bucket's group carries `score`, `average_score` is
the arithmetic mean of those scores and `min_score`/`max_score` are their
extrema (likewise `average_confidence` when every group record carries
`confidence`); and when *no record of the entire input* carries `score`, the
averages default to 0 and the extrema to null.  (In the remaining, mixed cases
the missing cells enter the column as NaN: the bucket average becomes NaN
rather than the mean of the present values, and a group with no present score
gets NaN, not null, for its extrema — see the counterexample.) -/
theorem C2_bucket_statistics (data : List Record) (p : String) (b : PeriodBucket)
    (hb : b ∈ aggregate_by_period data p) :
    ((∀ r ∈ periodGroup data p b.period, r.score.isSome) →
      b.average_score = some (((periodGroup data p b.period).filterMap Record.score).sum
          / (((periodGroup data p b.period).filterMap Record.score).length : ℚ))
      ∧ (∃ m, b.min_score = some (some m)
          ∧ m ∈ (periodGroup data p b.period).filterMap Record.score
          ∧ ∀ x ∈ (periodGroup data p b.period).filterMap Record.score, m ≤ x)
      ∧ (∃ m, b.max_score = some (some m)
          ∧ m ∈ (periodGroup data p b.period).filterMap Record.score
          ∧ ∀ x ∈ (periodGroup data p b.period).filterMap Record.score, x ≤ m))
    ∧ ((∀ r ∈ periodGroup data p b.period, r.confidence.isSome) →
      b.average_confidence = some (((periodGroup data p b.period).filterMap Record.confidence).sum
          / (((periodGroup data p b.period).filterMap Record.confidence).length : ℚ)))
    ∧ ((∀ r ∈ data, r.score = none) →
      b.average_score = some 0 ∧ b.min_score = none ∧ b.max_score = none) := by
  obtain ⟨hbeq, hkmem⟩ := mem_aggregate_by_period hb
  have h := aggregate_group_stats data p b.period (periodGroup_ne_nil hkmem)
  rw [← hbeq] at h
  exact h

/-- Witness for C2_bucket_statistics: both records of the single daily bucket
carry `score` and `confidence`, and the bucket average is their mean. -/
theorem C2_bucket_statistics_witness :
    (aggregate_group [⟨none, some (1/2), some (3/4), some 100, none⟩,
        ⟨none, some (3/2), some (1/4), some 200, none⟩] "daily" 0).average_score
      = some (((periodGroup [⟨none, some (1/2), some (3/4), some 100, none⟩,
          ⟨none, some (3/2), some (1/4), some 200, none⟩] "daily" 0).filterMap
            Record.score).sum
        / (((periodGroup [⟨none, some (1/2), some (3/4), some 100, none⟩,
          ⟨none, some (3/2), some (1/4), some 200, none⟩] "daily" 0).filterMap
            Record.score).length : ℚ)) :=
  ((C2_bucket_statistics [⟨none, some (1/2), some (3/4), some 100, none⟩,
      ⟨none, some (3/2), some (1/4), some 200, none⟩] "daily"
      (aggregate_group [⟨none, some (1/2), some (3/4), some 100, none⟩,
        ⟨none, some (3/2), some (1/4), some 200, none⟩] "daily" 0)
      (by with_unfolding_all decide)).1 (by with_unfolding_all decide)).1

section PercentageLemmas

theorem rhed_le (a t : Nat) (ht : 0 < t) : 2 * (t * roundHalfEvenDiv a t) ≤ 2 * a + t := by
  have hdm := Nat.div_add_mod a t
  have hmod := Nat.mod_lt a ht
  simp only [roundHalfEvenDiv]
  split_ifs with h1 h2 h3 <;>
    first
      | (generalize hX : t * (a / t) = X at hdm ⊢; omega)
      | (rw [Nat.mul_succ]; generalize hX : t * (a / t) = X at hdm ⊢; omega)

theorem le_rhed (a t : Nat) (ht : 0 < t) : 2 * a ≤ 2 * (t * roundHalfEvenDiv a t) + t := by
  have hdm := Nat.div_add_mod a t
  have hmod := Nat.mod_lt a ht
  simp only [roundHalfEvenDiv]
  split_ifs with h1 h2 h3 <;>
    first
      | (generalize hX : t * (a / t) = X at hdm ⊢; omega)
      | (rw [Nat.mul_succ]; generalize hX : t * (a / t) = X at hdm ⊢; omega)

/-- When the three counts exhaust the total, the three rounded percentages
(in tenths) sum to 1000 ± 1. -/
theorem tenths_sum_bounds (c1 c2 c3 t : Nat) (ht : 0 < t) (hsum : c1 + c2 + c3 = t) :
    999 ≤ pctTenths c1 t + pctTenths c2 t + pctTenths c3 t
    ∧ pctTenths c1 t + pctTenths c2 t + pctTenths c3 t ≤ 1001 := by
  have hu1 := rhed_le (1000 * c1) t ht
  have hu2 := rhed_le (1000 * c2) t ht
  have hu3 := rhed_le (1000 * c3) t ht
  have hl1 := le_rhed (1000 * c1) t ht
  have hl2 := le_rhed (1000 * c2) t ht
  have hl3 := le_rhed (1000 * c3) t ht
  rw [pctTenths, pctTenths, pctTenths]
  set T1 := roundHalfEvenDiv (1000 * c1) t
  set T2 := roundHalfEvenDiv (1000 * c2) t
  set T3 := roundHalfEvenDiv (1000 * c3) t
  have hup : t * (2 * (T1 + T2 + T3)) ≤ t * 2003 := by
    have h1 : t * (2 * (T1 + T2 + T3)) = 2 * (t * T1) + 2 * (t * T2) + 2 * (t * T3) := by
      ring
    have h2 : 2 * (1000 * c1) + t + (2 * (1000 * c2) + t) + (2 * (1000 * c3) + t)
        = 2000 * (c1 + c2 + c3) + 3 * t := by
      ring
    rw [h1]
    calc 2 * (t * T1) + 2 * (t * T2) + 2 * (t * T3)
        ≤ 2 * (1000 * c1) + t + (2 * (1000 * c2) + t) + (2 * (1000 * c3) + t) := by omega
      _ = 2000 * (c1 + c2 + c3) + 3 * t := h2
      _ = t * 2003 := by rw [hsum]; ring
  have hlo : t * 1997 ≤ t * (2 * (T1 + T2 + T3)) := by
    have h1 : t * (2 * (T1 + T2 + T3)) = 2 * (t * T1) + 2 * (t * T2) + 2 * (t * T3) := by
      ring
    have h3 : 2000 * (c1 + c2 + c3) = 2 * (1000 * c1) + 2 * (1000 * c2) + 2 * (1000 * c3) := by
      ring
    have h4 : t * 1997 + 3 * t = 2000 * t := by ring
    rw [h1]
    have h5 : 2000 * t ≤ 2 * (t * T1) + 2 * (t * T2) + 2 * (t * T3) + 3 * t := by
      calc 2000 * t = 2000 * (c1 + c2 + c3) := by rw [hsum]
        _ = 2 * (1000 * c1) + 2 * (1000 * c2) + 2 * (1000 * c3) := h3
        _ ≤ 2 * (t * T1) + 2 * (t * T2) + 2 * (t * T3) + 3 * t := by omega
    omega
  have hub : 2 * (T1 + T2 + T3) ≤ 2003 := Nat.le_of_mul_le_mul_left hup ht
  have hlb : 1997 ≤ 2 * (T1 + T2 + T3) := Nat.le_of_mul_le_mul_left hlo ht
  omega

/-- When some item carries a label outside the three counted ones, the three
rounded percentages (in tenths) sum to at most 1001 — they can exceed 1000. -/
theorem tenths_sum_upper_unknown (c1 c2 c3 t : Nat) (ht : 0 < t)
    (hsum : c1 + c2 + c3 + 1 ≤ t) :
    pctTenths c1 t + pctTenths c2 t + pctTenths c3 t ≤ 1001 := by
  have hu1 := rhed_le (1000 * c1) t ht
  have hu2 := rhed_le (1000 * c2) t ht
  have hu3 := rhed_le (1000 * c3) t ht
  rw [pctTenths, pctTenths, pctTenths]
  set T1 := roundHalfEvenDiv (1000 * c1) t
  set T2 := roundHalfEvenDiv (1000 * c2) t
  set T3 := roundHalfEvenDiv (1000 * c3) t
  by_contra hcon
  have hS : 1002 ≤ T1 + T2 + T3 := by omega
  have h2S : t * 2004 ≤ t * (2 * (T1 + T2 + T3)) :=
    Nat.mul_le_mul_left t (by omega)
  have h1 : t * (2 * (T1 + T2 + T3)) = 2 * (t * T1) + 2 * (t * T2) + 2 * (t * T3) := by
    ring
  rw [h1] at h2S
  have hup : 2 * (t * T1) + 2 * (t * T2) + 2 * (t * T3)
      ≤ 2000 * (c1 + c2 + c3) + 3 * t := by
    have h2 : 2 * (1000 * c1) + t + (2 * (1000 * c2) + t) + (2 * (1000 * c3) + t)
        = 2000 * (c1 + c2 + c3) + 3 * t := by
      ring
    omega
  have hc : 2000 * (c1 + c2 + c3) + 2000 ≤ 2000 * t := by
    have := Nat.mul_le_mul_left 2000 hsum
    calc 2000 * (c1 + c2 + c3) + 2000 = 2000 * (c1 + c2 + c3 + 1) := by ring
      _ ≤ 2000 * t := this
  omega

theorem count_three_eq {α : Type} [DecidableEq α] (a b c : α)
    (hab : a ≠ b) (hac : a ≠ c) (hbc : b ≠ c) :
    ∀ l : List α, (∀ x ∈ l, x = a ∨ x = b ∨ x = c) →
      l.count a + l.count b + l.count c = l.length := by
  intro l
  induction l with
  | nil => intro _; rfl
  | cons x t ih =>
    intro h
    have ht := ih (fun y hy => h y (List.mem_cons_of_mem x hy))
    rw [List.count_cons, List.count_cons, List.count_cons, List.length_cons]
    rcases h x (List.mem_cons_self x t) with hx | hx | hx
    · rw [if_pos (by simp only [beq_iff_eq]; exact hx),
        if_neg (by simp only [beq_iff_eq]; exact fun hcon => hab (hx.symm.trans hcon)),
        if_neg (by simp only [beq_iff_eq]; exact fun hcon => hac (hx.symm.trans hcon))]
      omega
    · rw [if_neg (by simp only [beq_iff_eq]; exact fun hcon => hab (hcon.symm.trans hx)),
        if_pos (by simp only [beq_iff_eq]; exact hx),
        if_neg (by simp only [beq_iff_eq]; exact fun hcon => hbc (hx.symm.trans hcon))]
      omega
    · rw [if_neg (by simp only [beq_iff_eq]; exact fun hcon => hac (hcon.symm.trans hx)),
        if_neg (by simp only [beq_iff_eq]; exact fun hcon => hbc (hcon.symm.trans hx)),
        if_pos (by simp only [beq_iff_eq]; exact hx)]
      omega

theorem count_three_lt {α : Type} [DecidableEq α] (a b c : α)
    (hab : a ≠ b) (hac : a ≠ c) (hbc : b ≠ c) :
    ∀ l : List α, (∃ x ∈ l, ¬(x = a ∨ x = b ∨ x = c)) →
      l.count a + l.count b + l.count c + 1 ≤ l.length := by
  intro l
  induction l with
  | nil =>
    rintro ⟨x, hx, _⟩
    exact absurd hx (List.not_mem_nil x)
  | cons x t ih =>
    rintro ⟨y, hy, hyp⟩
    rw [List.count_cons, List.count_cons, List.count_cons, List.length_cons]
    rcases List.mem_cons.mp hy with hyx | hyt
    · have hxp : ¬(x = a ∨ x = b ∨ x = c) := hyx ▸ hyp
      rw [if_neg (by simp only [beq_iff_eq]; exact fun hcon => hxp (Or.inl hcon)),
        if_neg (by simp only [beq_iff_eq]; exact fun hcon => hxp (Or.inr (Or.inl hcon))),
        if_neg (by simp only [beq_iff_eq]; exact fun hcon => hxp (Or.inr (Or.inr hcon)))]
      have := count_three_le a b c hab hac hbc t
      omega
    · have hiht := ih ⟨y, hyt, hyp⟩
      by_cases hxa : x = a
      · rw [if_pos (by simp only [beq_iff_eq]; exact hxa),
          if_neg (by simp only [beq_iff_eq]; exact fun hcon => hab (hxa.symm.trans hcon)),
          if_neg (by simp only [beq_iff_eq]; exact fun hcon => hac (hxa.symm.trans hcon))]
        omega
      · rw [if_neg (by simp only [beq_iff_eq]; exact hxa)]
        by_cases hxb : x = b
        · rw [if_pos (by simp only [beq_iff_eq]; exact hxb),
            if_neg (by simp only [beq_iff_eq]; exact fun hcon => hbc (hxb.symm.trans hcon))]
          omega
        · rw [if_neg (by simp only [beq_iff_eq]; exact hxb)]
          by_cases hxc : x = c
          · rw [if_pos (by simp only [beq_iff_eq]; exact hxc)]
            omega
          · rw [if_neg (by simp only [beq_iff_eq]; exact hxc)]
            omega

end PercentageLemmas

theorem get_sentiment_summary_pcts (items : List Record) (hE : items.isEmpty = false) :
    (get_sentiment_summary items).positive_pct
        = pctQ ((items.map sentimentLabel).count "positive") (items.map sentimentLabel).length
    ∧ (get_sentiment_summary items).negative_pct
        = pctQ ((items.map sentimentLabel).count "negative") (items.map sentimentLabel).length
    ∧ (get_sentiment_summary items).neutral_pct
        = pctQ ((items.map sentimentLabel).count "neutral") (items.map sentimentLabel).length := by
  rw [get_sentiment_summary, if_neg (by rw [hE]; simp)]
  exact ⟨rfl, rfl, rfl⟩

/-- C3 amended — Percentage law: for a non-empty input, if every item's
effective label (`item.get('sentiment', 'neutral')`) is one of
positive/negative/neutral then the three rounded percentages sum to
100.0 ± 0.1; if some item carries a label outside those three, the sum is at
most 100.1 — it is *not* strictly below 100.0 in general (rounding can push it
to exactly 100.0 or even 100.1; see the counterexample). -/
theorem C3_percentage_law (items : List Record) (hne : items ≠ []) :
    ((∀ r ∈ items, sentimentLabel r = "positive" ∨ sentimentLabel r = "negative"
        ∨ sentimentLabel r = "neutral") →
      |(get_sentiment_summary items).positive_pct + (get_sentiment_summary items).negative_pct
        + (get_sentiment_summary items).neutral_pct - 100| ≤ 1/10)
    ∧ ((∃ r ∈ items, ¬(sentimentLabel r = "positive" ∨ sentimentLabel r = "negative"
        ∨ sentimentLabel r = "neutral")) →
      (get_sentiment_summary items).positive_pct + (get_sentiment_summary items).negative_pct
        + (get_sentiment_summary items).neutral_pct ≤ 100 + 1/10) := by
  have hE : items.isEmpty = false := by
    cases items with
    | nil => exact absurd rfl hne
    | cons r t => rfl
  obtain ⟨hp, hn, hu⟩ := get_sentiment_summary_pcts items hE
  rw [hp, hn, hu]
  set labels := items.map sentimentLabel with hlabels
  have htpos : 0 < labels.length := by
    rw [hlabels, List.length_map]
    cases items with
    | nil => exact absurd rfl hne
    | cons r t => simp
  constructor
  · intro hall
    have hall' : ∀ x ∈ labels, x = "positive" ∨ x = "negative" ∨ x = "neutral" := by
      intro x hx
      rw [hlabels] at hx
      obtain ⟨r, hr, hrx⟩ := List.mem_map.mp hx
      rw [← hrx]
      exact hall r hr
    have hcnt := count_three_eq "positive" "negative" "neutral"
      (by decide) (by decide) (by decide) labels hall'
    obtain ⟨hlb, hub⟩ := tenths_sum_bounds (labels.count "positive") (labels.count "negative")
      (labels.count "neutral") labels.length htpos hcnt
    rw [pctQ, pctQ, pctQ]
    have hlbq : (999 : ℚ) ≤ (pctTenths (labels.count "positive") labels.length : ℚ)
        + (pctTenths (labels.count "negative") labels.length : ℚ)
        + (pctTenths (labels.count "neutral") labels.length : ℚ) := by
      exact_mod_cast hlb
    have hubq : (pctTenths (labels.count "positive") labels.length : ℚ)
        + (pctTenths (labels.count "negative") labels.length : ℚ)
        + (pctTenths (labels.count "neutral") labels.length : ℚ) ≤ 1001 := by
      exact_mod_cast hub
    rw [abs_le]
    constructor
    · linarith
    · linarith
  · intro hex
    obtain ⟨r, hr, hrp⟩ := hex
    have hex' : ∃ x ∈ labels, ¬(x = "positive" ∨ x = "negative" ∨ x = "neutral") := by
      refine ⟨sentimentLabel r, ?_, hrp⟩
      rw [hlabels]
      exact List.mem_map_of_mem sentimentLabel hr
    have hcnt := count_three_lt "positive" "negative" "neutral"
      (by decide) (by decide) (by decide) labels hex'
    have hub := tenths_sum_upper_unknown (labels.count "positive") (labels.count "negative")
      (labels.count "neutral") labels.length htpos hcnt
    rw [pctQ, pctQ, pctQ]
    have hubq : (pctTenths (labels.count "positive") labels.length : ℚ)
        + (pctTenths (labels.count "negative") labels.length : ℚ)
        + (pctTenths (labels.count "neutral") labels.length : ℚ) ≤ 1001 := by
      exact_mod_cast hub
    linarith

/-- Witness for C3_percentage_law on a single positively-labelled item:
the percentages are 100.0, 0.0, 0.0 and the sum is exactly 100. -/
theorem C3_percentage_law_witness :
    |(get_sentiment_summary [⟨some "positive", none, none, none, none⟩]).positive_pct
      + (get_sentiment_summary [⟨some "positive", none, none, none, none⟩]).negative_pct
      + (get_sentiment_summary [⟨some "positive", none, none, none, none⟩]).neutral_pct
      - 100| ≤ 1/10 :=
  (C3_percentage_law [⟨some "positive", none, none, none, none⟩] (by decide)).1 (by decide)

/-- The 10000-item input refuting the strict percentage gap: 6 positive,
6 negative, 9987 neutral and one unknown label.  The rounded percentages are
0.1, 0.1 and 99.9 (both 0.06% values round up to 0.1 and 99.87% rounds up to
99.9), summing to 100.1 — not strictly below 100. -/
def c3CexItems : List Record :=
  List.replicate 6 ⟨some "positive", none, none, none, none⟩
    ++ List.replicate 6 ⟨some "negative", none, none, none, none⟩
    ++ List.replicate 9987 ⟨some "neutral", none, none, none, none⟩
    ++ [⟨some "excited", none, none, none, none⟩]

/-- C3 counterexample: an input containing known labels and one unknown label
whose three rounded percentages sum to 100.1 — refuting the claim that the
sum is strictly less than 100.0 whenever an unknown label is present. -/
theorem C3_counterexample :
    (∃ r ∈ c3CexItems, ¬(sentimentLabel r = "positive" ∨ sentimentLabel r = "negative"
        ∨ sentimentLabel r = "neutral"))
    ∧ ¬ ((get_sentiment_summary c3CexItems).positive_pct
        + (get_sentiment_summary c3CexItems).negative_pct
        + (get_sentiment_summary c3CexItems).neutral_pct < 100) := by
  have hE : c3CexItems.isEmpty = false := rfl
  have hlab : c3CexItems.map sentimentLabel
      = List.replicate 6 "positive" ++ List.replicate 6 "negative"
        ++ List.replicate 9987 "neutral" ++ ["excited"] := by
    simp only [c3CexItems, List.map_append, List.map_replicate, List.map_cons, List.map_nil]
    rfl
  have hcp : (c3CexItems.map sentimentLabel).count "positive" = 6 := by
    rw [hlab]
    simp only [List.count_append, List.count_replicate, List.count_singleton,
      List.count_cons, List.count_nil]
    decide
  have hcn : (c3CexItems.map sentimentLabel).count "negative" = 6 := by
    rw [hlab]
    simp only [List.count_append, List.count_replicate, List.count_singleton,
      List.count_cons, List.count_nil]
    decide
  have hcne : (c3CexItems.map sentimentLabel).count "neutral" = 9987 := by
    rw [hlab]
    simp only [List.count_append, List.count_replicate, List.count_singleton,
      List.count_cons, List.count_nil]
    decide
  have hlen : (c3CexItems.map sentimentLabel).length = 10000 := by
    rw [hlab, List.length_append, List.length_append, List.length_append,
      List.length_replicate, List.length_replicate, List.length_replicate]
    decide
  obtain ⟨hp, hn, hu⟩ := get_sentiment_summary_pcts c3CexItems hE
  constructor
  · refine ⟨⟨some "excited", none, none, none, none⟩, ?_, by decide⟩
    exact List.mem_append_right _ (List.mem_singleton.mpr rfl)
  · rw [hp, hn, hu, hcp, hcn, hcne, hlen]
    with_unfolding_all decide

section SummaryStatsLemmas

theorem sum_sq_dev (l : List ℚ) (c : ℚ) :
    (l.map (fun x => (x - c) ^ 2)).sum
      = (l.map (fun x => x ^ 2)).sum - 2 * c * l.sum + (l.length : ℚ) * c ^ 2 := by
  induction l with
  | nil => simp
  | cons x t ih =>
    simp only [List.map_cons, List.sum_cons, List.length_cons]
    push_cast
    rw [ih]
    ring

/-- The two textbook forms of the sample variance agree for `n ≥ 2` (in fact
for `n ≥ 1`): `(Σx² − (Σx)²/n) = Σ(x − x̄)²`. -/
theorem variance_forms (l : List ℚ) (hl : 1 ≤ l.length) :
    (l.map (fun x => x ^ 2)).sum - l.sum ^ 2 / (l.length : ℚ)
      = (l.map (fun x => (x - l.sum / (l.length : ℚ)) ^ 2)).sum := by
  have hn : (l.length : ℚ) ≠ 0 := Nat.cast_ne_zero.mpr (by omega)
  rw [sum_sq_dev l (l.sum / (l.length : ℚ))]
  field_simp
  ring

theorem get_summary_statistics_score (data : List Record)
    (hne : data.isEmpty = false) (hcol : (data.any fun r => r.score.isSome) = true) :
    (get_summary_statistics data).score_mean
        = some (roundQ 3 ((data.filterMap Record.score).sum
          / ((data.filterMap Record.score).length : ℚ)))
    ∧ (get_summary_statistics data).score_std_sq = sampleVariance (data.filterMap Record.score)
    ∧ (get_summary_statistics data).score_min
        = (colMin (data.filterMap Record.score)).map (roundQ 3)
    ∧ (get_summary_statistics data).score_max
        = (colMax (data.filterMap Record.score)).map (roundQ 3) := by
  rw [get_summary_statistics, if_neg (by rw [hne]; simp)]
  refine ⟨?_, ?_, ?_, ?_⟩
  · show (if (data.any fun r => r.score.isSome) = true then _ else _) = _
    rw [if_pos hcol]
  · show (if (data.any fun r => r.score.isSome) = true then _ else _) = _
    rw [if_pos hcol]
  · show (if (data.any fun r => r.score.isSome) = true then _ else _) = _
    rw [if_pos hcol]
  · show (if (data.any fun r => r.score.isSome) = true then _ else _) = _
    rw [if_pos hcol]

end SummaryStatsLemmas

/-- C7 counterexample: on a single record with `score = 5` the score
statistics do not default to 0 — the mean/min/max are the score itself and
the standard deviation is NaN (pandas `std()` with `ddof=1` on one value),
refuting "with 0 or 1 records every score statistic defaults to 0". -/
theorem C7_counterexample :
    ¬ ((get_summary_statistics [⟨none, some 5, none, none, none⟩]).score_mean = some 0
      ∧ (get_summary_statistics [⟨none, some 5, none, none, none⟩]).score_std_sq = some 0
      ∧ (get_summary_statistics [⟨none, some 5, none, none, none⟩]).score_min = some 0
      ∧ (get_summary_statistics [⟨none, some 5, none, none, none⟩]).score_max = some 0) := by
  with_unfolding_all decide

/-- C7 amended — Score statistics of `get_summary_statistics`: the standard
deviation is the sample (n−1) formula over the records that carry `score`
whenever at least two of them do (stated on the variance, the square of the
reported std: it equals `Σ(x − x̄)² / (n − 1)`); with an empty input every
score statistic defaults to 0; but with exactly one present score the
statistics do *not* default to 0: the std is NaN and mean/min/max equal that
score. -/
theorem C7_score_statistics (data : List Record) :
    (data = [] →
      (get_summary_statistics data).score_mean = some 0
      ∧ (get_summary_statistics data).score_std_sq = some 0
      ∧ (get_summary_statistics data).score_min = some 0
      ∧ (get_summary_statistics data).score_max = some 0)
    ∧ (2 ≤ (data.filterMap Record.score).length →
      (get_summary_statistics data).score_std_sq
        = some (((data.filterMap Record.score).map
            (fun x => (x - (data.filterMap Record.score).sum
              / ((data.filterMap Record.score).length : ℚ)) ^ 2)).sum
          / (((data.filterMap Record.score).length - 1 : Nat) : ℚ)))
    ∧ (∀ s : ℚ, data.filterMap Record.score = [s] →
      (get_summary_statistics data).score_std_sq = none
      ∧ (get_summary_statistics data).score_mean = some (roundQ 3 s)
      ∧ (get_summary_statistics data).score_min = some (roundQ 3 s)
      ∧ (get_summary_statistics data).score_max = some (roundQ 3 s)) := by
  refine ⟨?_, ?_, ?_⟩
  · intro h
    subst h
    exact ⟨rfl, rfl, rfl, rfl⟩
  · intro h2
    have hvne : data.filterMap Record.score ≠ [] := by
      intro hc
      rw [hc] at h2
      exact absurd h2 (by decide)
    obtain ⟨v, hv⟩ := List.exists_mem_of_ne_nil _ hvne
    obtain ⟨r, hr, hrs⟩ := List.mem_filterMap.mp hv
    have hne : data.isEmpty = false := by
      cases data with
      | nil => exact absurd hr (List.not_mem_nil r)
      | cons a t => rfl
    have hcol : (data.any fun r => r.score.isSome) = true :=
      List.any_eq_true.mpr ⟨r, hr, by rw [hrs]; rfl⟩
    rw [(get_summary_statistics_score data hne hcol).2.1, sampleVariance,
      if_neg (by omega)]
    dsimp only
    rw [variance_forms (data.filterMap Record.score) (by omega)]
  · intro s hs
    have hvne : data.filterMap Record.score ≠ [] := by
      rw [hs]
      exact List.cons_ne_nil s []
    obtain ⟨v, hv⟩ := List.exists_mem_of_ne_nil _ hvne
    obtain ⟨r, hr, hrs⟩ := List.mem_filterMap.mp hv
    have hne : data.isEmpty = false := by
      cases data with
      | nil => exact absurd hr (List.not_mem_nil r)
      | cons a t => rfl
    have hcol : (data.any fun r => r.score.isSome) = true :=
      List.any_eq_true.mpr ⟨r, hr, by rw [hrs]; rfl⟩
    obtain ⟨hm, hstd, hmin, hmax⟩ := get_summary_statistics_score data hne hcol
    refine ⟨?_, ?_, ?_, ?_⟩
    · rw [hstd, hs, sampleVariance, if_pos (by simp)]
    · rw [hm, hs]
      have hss : (([s] : List ℚ).sum / (([s] : List ℚ).length : ℚ)) = s := by
        simp
      rw [hss]
    · rw [hmin, hs]
      rfl
    · rw [hmax, hs]
      rfl

/-- Witness for C7_score_statistics: with present scores `[0, 1]` the
variance under the reported std is the centred sample value
`((0 − 1/2)² + (1 − 1/2)²) / (2 − 1) = 1/2`. -/
theorem C7_score_statistics_witness :
    (get_summary_statistics [⟨none, some 0, none, some 3, none⟩,
        ⟨none, some 1, none, none, none⟩]).score_std_sq = some (1/2) := by
  have h := (C7_score_statistics [⟨none, some 0, none, some 3, none⟩,
    ⟨none, some 1, none, none, none⟩]).2.1 (by decide)
  rw [h]
  with_unfolding_all decide
